import Mathlib

/-!
Verification of the speckle-filter pipeline of the repository.

A shallow embedding, in exact rational arithmetic, of the code in
`uow_loading_example.ipynb` and `loading_with_stac.ipynb`:

* `lee_filter` (notebook cell "Speckle filtering"):
    img_mean      = uniform_filter(img, size)
    img_sqr_mean  = uniform_filter(img**2, size)
    img_variance  = img_sqr_mean - img_mean**2
    overall_variance = np.var(img)
    img_weights   = img_variance / (img_variance + overall_variance)
    img_output    = img_mean + img_weights * (img - img_mean)
* `apply_lee_filter`: fills NaN with 0, then applies `lee_filter` to each
  y-x slice independently (xarray `apply_ufunc` with core dims `["y","x"]`).
* the masking step `xr.where(mask == 0, data, np.nan)`;
* the decibel conversion `10 * np.log10(x)`.

Modelling conventions:
* A 2-D array is a total function `Fin m → Fin n → ℚ`; arithmetic is exact
  (rational), so floating-point rounding is out of scope.
* scipy's `uniform_filter` (default mode `"reflect"`, origin 0) is embedded
  as the mean over the `size × size` block of the reflect-padded array whose
  offsets run from `-(size / 2)` to `size - 1 - size / 2` on each axis; the
  separable 1-D passes of scipy compose to exactly this 2-D mean.
* A cell value `Option ℚ` uses `none` for a non-finite IEEE value (NaN or
  an infinity).  All inputs to `lee_filter` are finite, every denominator
  except the weight denominator is a positive constant, and once a
  non-finite value appears it only flows through `*` and `+` against finite
  operands, where IEEE propagates non-finiteness; so `none`-propagation is
  a faithful abstraction of the float computation in exact arithmetic.
-/

namespace DEAnt

/-- Index reflection of scipy's default boundary mode `"reflect"`
(`(d c b a | a b c d | d c b a)`): an out-of-range index is folded into
`[0, n)` by repeated reflection about the array edges; the mapping is
`j ↦ j` for `j ∈ [0, n)` and `j ↦ 2n - 1 - j` for `j ∈ [n, 2n)`,
periodically extended with period `2n`. -/
def reflect (n : ℕ) [NeZero n] (i : ℤ) : Fin n :=
  if h : (i % (2 * (n : ℤ))).toNat < n then ⟨_, h⟩
  else
    ⟨2 * n - 1 - (i % (2 * (n : ℤ))).toNat, by
      have hn : 0 < n := Nat.pos_of_ne_zero (NeZero.ne n)
      have h2 : i % (2 * (n : ℤ)) < 2 * (n : ℤ) :=
        Int.emod_lt_of_pos i (by exact_mod_cast Nat.mul_pos two_pos hn)
      omega⟩

variable {m n t : ℕ} [NeZero m] [NeZero n]

/-- The reflect-padded extension of a 2-D array to all of `ℤ × ℤ`. -/
def padReflect (img : Fin m → Fin n → ℚ) (i j : ℤ) : ℚ :=
  img (reflect m i) (reflect n j)

/-- `scipy.ndimage.uniform_filter(img, size)` in exact arithmetic: the mean
over the `size × size` window of the reflect-padded array.  With origin 0
the window offsets on each axis run from `-(size / 2)` to
`size - 1 - size / 2` (symmetric for odd `size`). -/
def uniform_filter (img : Fin m → Fin n → ℚ) (size : ℕ) (i : Fin m) (j : Fin n) : ℚ :=
  (∑ a ∈ Finset.range size, ∑ b ∈ Finset.range size,
      padReflect img ((i : ℤ) - (size / 2 : ℕ) + a) ((j : ℤ) - (size / 2 : ℕ) + b))
    / ((size : ℚ) * size)

/-- `np.mean(img)`: the arithmetic mean of the whole array. -/
def np_mean (img : Fin m → Fin n → ℚ) : ℚ :=
  (∑ i, ∑ j, img i j) / ((m : ℚ) * n)

/-- `np.var(img)`: the population variance of the whole array
(mean of squared deviations from the mean, `ddof = 0`). -/
def np_var (img : Fin m → Fin n → ℚ) : ℚ :=
  (∑ i, ∑ j, (img i j - np_mean img) ^ 2) / ((m : ℚ) * n)

/-- IEEE division of two finite values, with `none` standing for a
non-finite result: the result is finite exactly when the denominator is
nonzero (`0/0` is NaN, `x/0` is an infinity for `x ≠ 0`). -/
def fdiv (a b : ℚ) : Option ℚ :=
  if b = 0 then none else some (a / b)

/-- `img_sqr_mean = uniform_filter(img**2, size)` of `lee_filter`. -/
def lee_sqr_mean (img : Fin m → Fin n → ℚ) (size : ℕ) (i : Fin m) (j : Fin n) : ℚ :=
  uniform_filter (fun a b => img a b ^ 2) size i j

/-- `img_variance = img_sqr_mean - img_mean**2` of `lee_filter`. -/
def lee_variance (img : Fin m → Fin n → ℚ) (size : ℕ) (i : Fin m) (j : Fin n) : ℚ :=
  lee_sqr_mean img size i j - uniform_filter img size i j ^ 2

/-- `img_weights = img_variance / (img_variance + overall_variance)` of
`lee_filter`; NaN (`none`) when the denominator is zero. -/
def lee_weights (img : Fin m → Fin n → ℚ) (size : ℕ) (i : Fin m) (j : Fin n) : Option ℚ :=
  fdiv (lee_variance img size i j) (lee_variance img size i j + np_var img)

/-- The `lee_filter` function of the notebook, pixel by pixel:
`img_output = img_mean + img_weights * (img - img_mean)`.  A `none` weight
(NaN) propagates through `*` and `+` to a `none` output. -/
def lee_filter (img : Fin m → Fin n → ℚ) (size : ℕ) (i : Fin m) (j : Fin n) : Option ℚ :=
  (lee_weights img size i j).map
    (fun w => uniform_filter img size i j + w * (img i j - uniform_filter img size i j))

/-- `data_array.fillna(0)` on one cell: a NaN cell (`none`) becomes `0`. -/
def fillna (v : Option ℚ) : ℚ :=
  v.getD 0

/-- The `apply_lee_filter` function of the notebook on a stack with one
leading (non-spatial) dimension: `fillna(0)`, then `xr.apply_ufunc` with
`input_core_dims = [["y","x"]]` and `vectorize=True`, which applies
`lee_filter` to each y-x slice separately. -/
def apply_lee_filter (da : Fin t → Fin m → Fin n → Option ℚ) (size : ℕ)
    (k : Fin t) (i : Fin m) (j : Fin n) : Option ℚ :=
  lee_filter (fun a b => fillna (da k a b)) size i j

/-- The masking step
`VV_filtered_masked = xr.where(mask == 0, VV_filtered, np.nan)`, cell by
cell: keep the data value where the mask is `0`, NaN otherwise. -/
def VV_filtered_masked (mask : Fin m → Fin n → ℤ) (data : Fin m → Fin n → Option ℚ)
    (i : Fin m) (j : Fin n) : Option ℚ :=
  if mask i j = 0 then data i j else none

/-- The decibel conversion `HH_db = 10 * np.log10(HH)`, cell by cell, over
the reals. -/
noncomputable def HH_db (img : Fin m → Fin n → ℝ) (i : Fin m) (j : Fin n) : ℝ :=
  10 * Real.logb 10 (img i j)

/-- The spec's local mean: the arithmetic mean of the input samples in the
`size × size` window centred at `p` (offsets `-(size-1)/2 .. (size-1)/2`
on each axis for odd `size`), with reflected boundary handling. -/
def local_mean_spec (img : Fin m → Fin n → ℚ) (size : ℕ) (i : Fin m) (j : Fin n) : ℚ :=
  (∑ a ∈ Finset.range size, ∑ b ∈ Finset.range size,
      padReflect img ((i : ℤ) - ((size - 1) / 2 : ℕ) + a) ((j : ℤ) - ((size - 1) / 2 : ℕ) + b))
    / ((size : ℚ) * size)

/-- The spec's local mean of squared samples over the same centred window. -/
def local_sq_mean_spec (img : Fin m → Fin n → ℚ) (size : ℕ) (i : Fin m) (j : Fin n) : ℚ :=
  local_mean_spec (fun a b => img a b ^ 2) size i j

/-- The spec's local variance `local_sq_mean[p] - local_mean[p]^2`. -/
def local_var_spec (img : Fin m → Fin n → ℚ) (size : ℕ) (i : Fin m) (j : Fin n) : ℚ :=
  local_sq_mean_spec img size i j - local_mean_spec img size i j ^ 2

/-- A concrete non-constant 2×2 test image (values 0, 2 / 1, 3). -/
def exImg : Fin 2 → Fin 2 → ℚ :=
  fun i j => (i : ℚ) + 2 * (j : ℚ)

/-- A constant 2×2 image. -/
def constImg (c : ℚ) : Fin 2 → Fin 2 → ℚ :=
  fun _ _ => c

theorem reflect_coe (j : Fin n) : reflect n (j : ℤ) = j := by
  have hn : 0 < n := Nat.pos_of_ne_zero (NeZero.ne n)
  have h1 : ((j : ℤ)) % (2 * (n : ℤ)) = (j : ℤ) :=
    Int.emod_eq_of_lt (Int.natCast_nonneg _)
      (by exact_mod_cast Nat.lt_of_lt_of_le j.isLt (by omega))
  simp [reflect, h1, j.isLt]

theorem uniform_filter_const (c : ℚ) (size : ℕ) (hs : size ≠ 0) (i : Fin m) (j : Fin n) :
    uniform_filter (fun _ _ => c : Fin m → Fin n → ℚ) size i j = c := by
  have h : (size : ℚ) ≠ 0 := Nat.cast_ne_zero.mpr hs
  unfold uniform_filter padReflect
  simp only [Finset.sum_const, Finset.card_range, nsmul_eq_mul]
  field_simp
  ring

theorem np_mean_const (c : ℚ) : np_mean (fun _ _ => c : Fin m → Fin n → ℚ) = c := by
  have hm : (m : ℚ) ≠ 0 := Nat.cast_ne_zero.mpr (NeZero.ne m)
  have hn : (n : ℚ) ≠ 0 := Nat.cast_ne_zero.mpr (NeZero.ne n)
  unfold np_mean
  simp only [Finset.sum_const, Finset.card_univ, Fintype.card_fin, nsmul_eq_mul]
  field_simp
  ring

theorem np_var_const (c : ℚ) : np_var (fun _ _ => c : Fin m → Fin n → ℚ) = 0 := by
  unfold np_var
  rw [np_mean_const c]
  simp

theorem uniform_filter_one (img : Fin m → Fin n → ℚ) (i : Fin m) (j : Fin n) :
    uniform_filter img 1 i j = img i j := by
  unfold uniform_filter
  rw [Finset.sum_range_one, Finset.sum_range_one]
  norm_num [padReflect, reflect_coe]

/-- The mean of the squares dominates the square of the mean
(Cauchy-Schwarz, division form); degenerate when the set is empty. -/
theorem sq_mean_le_mean_sq {α : Type*} (s : Finset α) (v : α → ℚ) :
    ((∑ x ∈ s, v x) / (s.card : ℚ)) ^ 2 ≤ (∑ x ∈ s, v x ^ 2) / (s.card : ℚ) := by
  rcases Nat.eq_zero_or_pos s.card with h | h
  · obtain rfl := Finset.card_eq_zero.mp h
    simp
  · have hN : (0 : ℚ) < (s.card : ℚ) := by exact_mod_cast h
    have key : (∑ x ∈ s, v x) ^ 2 ≤ (s.card : ℚ) * ∑ x ∈ s, v x ^ 2 :=
      sq_sum_le_card_mul_sum_sq
    rw [div_pow, div_le_div_iff₀ (by positivity) hN]
    nlinarith [key, hN]

/-- Double-sum version of `sq_mean_le_mean_sq`. -/
theorem sq_mean_le_mean_sq₂ {α β : Type*} (s : Finset α) (t : Finset β) (v : α → β → ℚ) :
    ((∑ x ∈ s, ∑ y ∈ t, v x y) / ((s.card : ℚ) * t.card)) ^ 2
      ≤ (∑ x ∈ s, ∑ y ∈ t, v x y ^ 2) / ((s.card : ℚ) * t.card) := by
  have h1 : ∑ x ∈ s, ∑ y ∈ t, v x y = ∑ p ∈ s ×ˢ t, v p.1 p.2 :=
    (Finset.sum_product' s t v).symm
  have h2 : ∑ x ∈ s, ∑ y ∈ t, v x y ^ 2 = ∑ p ∈ s ×ˢ t, v p.1 p.2 ^ 2 :=
    (Finset.sum_product' s t (fun a b => v a b ^ 2)).symm
  have h3 : (((s ×ˢ t).card : ℚ)) = (s.card : ℚ) * t.card := by
    rw [Finset.card_product]
    push_cast
    ring
  rw [h1, h2, ← h3]
  exact sq_mean_le_mean_sq _ _

/-- The `img_variance` of `lee_filter` is nonnegative in exact arithmetic. -/
theorem lee_variance_nonneg (img : Fin m → Fin n → ℚ) (size : ℕ) (i : Fin m) (j : Fin n) :
    0 ≤ lee_variance img size i j := by
  have h := sq_mean_le_mean_sq₂ (Finset.range size) (Finset.range size)
    (fun a b => padReflect img ((i : ℤ) - (size / 2 : ℕ) + a) ((j : ℤ) - (size / 2 : ℕ) + b))
  unfold lee_variance lee_sqr_mean uniform_filter
  rw [sub_nonneg]
  simpa [Finset.card_range, padReflect] using h

/-- For odd sizes the scipy window is exactly the centred window of the
spec. -/
theorem uniform_filter_odd (img : Fin m → Fin n → ℚ) (size : ℕ) (hs : Odd size)
    (i : Fin m) (j : Fin n) :
    uniform_filter img size i j = local_mean_spec img size i j := by
  rw [Nat.odd_iff] at hs
  have h2 : size / 2 = (size - 1) / 2 := by omega
  unfold uniform_filter local_mean_spec
  rw [h2]

/-- The output pixel of `lee_filter` is NaN exactly when the weight
denominator is zero. -/
theorem lee_filter_none_iff (img : Fin m → Fin n → ℚ) (size : ℕ) (i : Fin m) (j : Fin n) :
    lee_filter img size i j = none ↔ lee_variance img size i j + np_var img = 0 := by
  unfold lee_filter lee_weights fdiv
  by_cases h : lee_variance img size i j + np_var img = 0 <;> simp [h]

/-- C1: for every finite input, every odd window size (the spec's contract
restricts `size` to odd positive values, making "the size-by-size window
centred at p" well defined) and every pixel at which the weight denominator
`local_variance + overall_variance` is nonzero, the Lee filter output is
`local_mean[p] + weight[p] * (input[p] - local_mean[p])`, where
`local_mean` and `local_sq_mean` are the means of the samples and the
squared samples over the size-by-size window centred at `p`,
`local_variance = local_sq_mean - local_mean^2`, `overall_variance` is the
variance of the entire input array, and
`weight = local_variance / (local_variance + overall_variance)`. -/
theorem C1_lee_filter_output_formula (img : Fin m → Fin n → ℚ) (size : ℕ)
    (hs : Odd size) (i : Fin m) (j : Fin n)
    (hd : local_var_spec img size i j + np_var img ≠ 0) :
    lee_filter img size i j =
      some (local_mean_spec img size i j
        + local_var_spec img size i j / (local_var_spec img size i j + np_var img)
          * (img i j - local_mean_spec img size i j)) := by
  have hm := uniform_filter_odd img size hs i j
  have hsq := uniform_filter_odd (fun a b => img a b ^ 2) size hs i j
  have hv : lee_variance img size i j = local_var_spec img size i j := by
    unfold lee_variance lee_sqr_mean local_var_spec local_sq_mean_spec
    rw [hm, hsq]
  unfold lee_filter lee_weights fdiv
  rw [hv, hm, if_neg hd]
  rfl

/-- Witness for C1 at the concrete image `exImg`, window size 3,
pixel (0, 0). -/
theorem C1_lee_filter_output_formula_witness :
    (local_var_spec exImg 3 0 0 + np_var exImg ≠ 0) ∧
    lee_filter exImg 3 0 0 =
      some (local_mean_spec exImg 3 0 0
        + local_var_spec exImg 3 0 0 / (local_var_spec exImg 3 0 0 + np_var exImg)
          * (exImg 0 0 - local_mean_spec exImg 3 0 0)) :=
  ⟨by with_unfolding_all decide,
   C1_lee_filter_output_formula exImg 3 ⟨1, by norm_num⟩ 0 0
     (by with_unfolding_all decide)⟩

/-- C2 counterexample: on the uniform 2×2 image of fives with window size
3, the local variance and the overall variance are both zero, and the
output pixel is NaN (`none`), not the local mean 5: the code has no
zero-weight convention, it divides 0 by 0. -/
theorem C2_counterexample :
    lee_variance (constImg 5) 3 0 0 = 0 ∧ np_var (constImg 5) = 0 ∧
    uniform_filter (constImg 5) 3 0 0 = 5 ∧
    lee_filter (constImg 5) 3 0 0 = none ∧
    lee_filter (constImg 5) 3 0 0 ≠ some (uniform_filter (constImg 5) 3 0 0) := by
  with_unfolding_all decide

/-- C2 amended: at every pixel where the local variance and the overall
variance are both zero, the weight computation divides 0 by 0 with no
special convention; the resulting weight is NaN (non-finite), it
propagates, and the output pixel is NaN rather than the local mean.  No
fault is raised; the division simply produces a NaN value. -/
theorem C2_zero_variance_gives_nan (img : Fin m → Fin n → ℚ) (size : ℕ)
    (i : Fin m) (j : Fin n)
    (hlv : lee_variance img size i j = 0) (hov : np_var img = 0) :
    lee_weights img size i j = none ∧ lee_filter img size i j = none := by
  have h : lee_variance img size i j + np_var img = 0 := by rw [hlv, hov]; ring
  refine ⟨?_, (lee_filter_none_iff img size i j).mpr h⟩
  unfold lee_weights fdiv
  rw [if_pos h]

/-- Witness for the amended C2 on the uniform image of fives. -/
theorem C2_zero_variance_gives_nan_witness :
    (lee_variance (constImg 5) 3 0 0 = 0 ∧ np_var (constImg 5) = 0) ∧
    (lee_weights (constImg 5) 3 0 0 = none ∧ lee_filter (constImg 5) 3 0 0 = none) :=
  ⟨⟨by with_unfolding_all decide, by with_unfolding_all decide⟩,
   C2_zero_variance_gives_nan (constImg 5) 3 0 0
     (by with_unfolding_all decide) (by with_unfolding_all decide)⟩

/-- C3 counterexample: the filter is not a fixpoint on the uniform image of
ones: the output pixel is NaN (`none`), not 1. -/
theorem C3_counterexample :
    lee_filter (constImg 1) 3 0 0 = none ∧
    lee_filter (constImg 1) 3 0 0 ≠ some (constImg 1 0 0) := by
  with_unfolding_all decide

/-- C3 amended: on a perfectly uniform input array every output pixel is
NaN (for every positive window size): the weight computation is 0/0, so
`filter(x, size)` is the all-NaN array, not `x`. -/
theorem C3_uniform_image_all_nan (c : ℚ) (size : ℕ) (hs : 0 < size)
    (i : Fin m) (j : Fin n) :
    lee_filter (fun _ _ => c : Fin m → Fin n → ℚ) size i j = none := by
  have h1 : uniform_filter (fun _ _ => c : Fin m → Fin n → ℚ) size i j = c :=
    uniform_filter_const c size (Nat.pos_iff_ne_zero.mp hs) i j
  have h2 : lee_sqr_mean (fun _ _ => c : Fin m → Fin n → ℚ) size i j = c ^ 2 :=
    uniform_filter_const (c ^ 2) size (Nat.pos_iff_ne_zero.mp hs) i j
  have hv : lee_variance (fun _ _ => c : Fin m → Fin n → ℚ) size i j = 0 := by
    unfold lee_variance
    rw [h1, h2]
    ring
  rw [lee_filter_none_iff, hv, np_var_const]
  ring

/-- Witness for the amended C3 on the uniform image of ones, size 3. -/
theorem C3_uniform_image_all_nan_witness :
    (0 < 3) ∧ lee_filter (constImg 1) 3 1 1 = none :=
  ⟨by decide, C3_uniform_image_all_nan 1 3 (by decide) 1 1⟩

/-- C4 counterexample: with window size 1 the filter is not the identity on
the constant image of sevens: the overall variance is zero, so the weight
is 0/0 and the output pixel is NaN, not 7. -/
theorem C4_counterexample :
    lee_filter (constImg 7) 1 0 0 = none ∧
    lee_filter (constImg 7) 1 0 0 ≠ some (constImg 7 0 0) := by
  with_unfolding_all decide

/-- C4 amended: with window size 1 the filter is the identity on every
input whose overall variance is nonzero (every non-constant image); on
constant images the weight is 0/0 and every output pixel is NaN instead. -/
theorem C4_size_one_identity (img : Fin m → Fin n → ℚ) (i : Fin m) (j : Fin n)
    (hov : np_var img ≠ 0) :
    lee_filter img 1 i j = some (img i j) := by
  have h1 : uniform_filter img 1 i j = img i j := uniform_filter_one img i j
  have h2 : lee_sqr_mean img 1 i j = img i j ^ 2 :=
    uniform_filter_one (fun a b => img a b ^ 2) i j
  have hv : lee_variance img 1 i j = 0 := by
    unfold lee_variance
    rw [h1, h2]
    ring
  unfold lee_filter lee_weights fdiv
  rw [hv, h1]
  simp [hov]

/-- Witness for the amended C4 on the non-constant image `exImg`. -/
theorem C4_size_one_identity_witness :
    (np_var exImg ≠ 0) ∧ lee_filter exImg 1 0 1 = some (exImg 0 1) :=
  ⟨by with_unfolding_all decide,
   C4_size_one_identity exImg 0 1 (by with_unfolding_all decide)⟩

/-- C5: in exact arithmetic the `img_variance` that the code feeds into the
weight computation is always nonnegative, hence equal to its clamp to
`≥ 0`: no negative variance propagates into the weights or the output.
(The clamp in the spec only guards floating-point rounding, which is
outside this exact-arithmetic model.) -/
theorem C5_variance_equals_clamp (img : Fin m → Fin n → ℚ) (size : ℕ)
    (hs : 0 < size) (i : Fin m) (j : Fin n) :
    0 ≤ lee_variance img size i j ∧
    lee_variance img size i j = max 0 (lee_variance img size i j) := by
  have h := lee_variance_nonneg img size i j
  exact ⟨h, (max_eq_right h).symm⟩

/-- Witness for C5 at `exImg`, size 3, pixel (1, 0). -/
theorem C5_variance_equals_clamp_witness :
    (0 < 3) ∧
    (0 ≤ lee_variance exImg 3 1 0 ∧
      lee_variance exImg 3 1 0 = max 0 (lee_variance exImg 3 1 0)) :=
  ⟨by decide, C5_variance_equals_clamp exImg 3 (by decide) 1 0⟩

/-- C6 counterexample: the code performs no window-size validation.  With
the even size 2, and with size 5 exceeding both spatial dimensions of the
2×2 image `exImg`, `lee_filter` silently returns an ordinary finite pixel
value instead of failing with a configuration error. -/
theorem C6_counterexample :
    (lee_filter exImg 2 0 0).isSome = true ∧
    (lee_filter exImg 5 0 0).isSome = true := by
  with_unfolding_all decide

/-- C6 amended: the code never validates the window size.  For every
size ≥ 1 — even, odd, or larger than either spatial dimension — every
pixel receives an output value, and that value is non-finite only in the
degenerate zero-total-variance case, never because of the size. -/
theorem C6_no_size_validation (img : Fin m → Fin n → ℚ) (size : ℕ)
    (i : Fin m) (j : Fin n) (hs : 0 < size) :
    lee_filter img size i j = none ↔
      lee_variance img size i j + np_var img = 0 :=
  lee_filter_none_iff img size i j

/-- Witness for the amended C6: the even size 2 and the oversized 5 are
both silently accepted on the 2×2 image `exImg`. -/
theorem C6_no_size_validation_witness :
    ((0 < 2) ∧ (lee_filter exImg 2 0 0 = none ↔
        lee_variance exImg 2 0 0 + np_var exImg = 0)) ∧
    ((0 < 5) ∧ (lee_filter exImg 5 0 0 = none ↔
        lee_variance exImg 5 0 0 + np_var exImg = 0)) :=
  ⟨⟨by decide, C6_no_size_validation exImg 2 0 0 (by decide)⟩,
   ⟨by decide, C6_no_size_validation exImg 5 0 0 (by decide)⟩⟩

/-- C7: `apply_lee_filter` filters each y-x slice independently: the result
on slice `k` is exactly `lee_filter` applied to the NaN-filled slice `k`
alone (so the overall variance is the variance of that slice, not of the
whole stack), and the result on slice `k` does not change when any other
slice of the stack changes. -/
theorem C7_per_slice_independence (da db : Fin t → Fin m → Fin n → Option ℚ)
    (size : ℕ) (k : Fin t) (i : Fin m) (j : Fin n) (hk : da k = db k) :
    apply_lee_filter da size k i j
        = lee_filter (fun a b => fillna (da k a b)) size i j ∧
    apply_lee_filter da size k i j = apply_lee_filter db size k i j := by
  refine ⟨rfl, ?_⟩
  unfold apply_lee_filter
  rw [hk]

/-- A 2-slice stack: slice 0 is a gradient, slice 1 is the constant 3. -/
def stackA : Fin 2 → Fin 2 → Fin 2 → Option ℚ :=
  fun k i j => if k = 0 then some ((i : ℚ) + (j : ℚ)) else some 3

/-- A 2-slice stack sharing slice 0 with `stackA` but with an all-NaN
slice 1. -/
def stackB : Fin 2 → Fin 2 → Fin 2 → Option ℚ :=
  fun k i j => if k = 0 then some ((i : ℚ) + (j : ℚ)) else none

/-- Witness for C7: slice 0 of `stackA` and `stackB` agree, so the filter
results on slice 0 agree, although slice 1 differs completely. -/
theorem C7_per_slice_independence_witness :
    (stackA 0 = stackB 0) ∧
    (apply_lee_filter stackA 3 0 0 1
        = lee_filter (fun a b => fillna (stackA 0 a b)) 3 0 1 ∧
      apply_lee_filter stackA 3 0 0 1 = apply_lee_filter stackB 3 0 0 1) :=
  ⟨by with_unfolding_all decide,
   C7_per_slice_independence stackA stackB 3 0 0 1
     (by with_unfolding_all decide)⟩

/-- C8: the masking step keeps a data cell unchanged where the mask value
is 0 and writes the NaN no-data sentinel where the mask value is any
nonzero code — including codes outside the enumeration {0,1,2,3}, such as
the invalid sentinel 255; the operation is purely elementwise: the output
cell depends only on the mask value and the data value of that same
cell. -/
theorem C8_masking_elementwise (mask : Fin m → Fin n → ℤ)
    (data : Fin m → Fin n → Option ℚ) (i : Fin m) (j : Fin n) :
    (mask i j = 0 → VV_filtered_masked mask data i j = data i j) ∧
    (mask i j ≠ 0 → VV_filtered_masked mask data i j = none) ∧
    (∀ (mask2 : Fin m → Fin n → ℤ) (data2 : Fin m → Fin n → Option ℚ),
      mask2 i j = mask i j → data2 i j = data i j →
      VV_filtered_masked mask2 data2 i j = VV_filtered_masked mask data i j) := by
  refine ⟨fun h => ?_, fun h => ?_, fun m2 d2 h1 h2 => ?_⟩ <;>
    unfold VV_filtered_masked
  · rw [if_pos h]
  · rw [if_neg h]
  · rw [h1, h2]

/-- A concrete mask: valid at (0,0), layover at (0,1), the invalid
sentinel 255 elsewhere. -/
def exMask : Fin 2 → Fin 2 → ℤ :=
  fun i j => if i = 0 ∧ j = 0 then 0 else if i = 0 ∧ j = 1 then 2 else 255

/-- Concrete all-finite data for the masking witness. -/
def exData : Fin 2 → Fin 2 → Option ℚ :=
  fun i j => some ((i : ℚ) + (j : ℚ) + 1)

/-- Witness for C8: a valid cell is kept, a layover cell (code 2) and an
out-of-enumeration cell (code 255) are both mapped to NaN. -/
theorem C8_masking_elementwise_witness :
    VV_filtered_masked exMask exData 0 0 = exData 0 0 ∧
    VV_filtered_masked exMask exData 0 1 = none ∧
    VV_filtered_masked exMask exData 1 1 = none :=
  ⟨(C8_masking_elementwise exMask exData 0 0).1 (by decide),
   (C8_masking_elementwise exMask exData 0 1).2.1 (by decide),
   (C8_masking_elementwise exMask exData 1 1).2.1 (by decide)⟩

/-- C9: the decibel conversion is the elementwise `10 * log10(input)`, and
for every positive input value the round trip `10 ** (db / 10)` recovers
the input exactly over the reals. -/
theorem C9_db_roundtrip (img : Fin m → Fin n → ℝ) (i : Fin m) (j : Fin n)
    (h : 0 < img i j) :
    HH_db img i j = 10 * Real.logb 10 (img i j) ∧
    (10 : ℝ) ^ (HH_db img i j / 10) = img i j := by
  refine ⟨rfl, ?_⟩
  have h10 : HH_db img i j / 10 = Real.logb 10 (img i j) := by
    unfold HH_db
    ring
  rw [h10]
  exact Real.rpow_logb (by norm_num) (by norm_num) h

/-- The constant 1×1 real image of value 100. -/
noncomputable def ex100 : Fin 1 → Fin 1 → ℝ :=
  fun _ _ => 100

/-- Witness for C9 at the linear value 100 (whose decibel value is 20). -/
theorem C9_db_roundtrip_witness :
    (0 : ℝ) < ex100 0 0 ∧
    (HH_db ex100 0 0 = 10 * Real.logb 10 (ex100 0 0) ∧
      (10 : ℝ) ^ (HH_db ex100 0 0 / 10) = ex100 0 0) :=
  ⟨by norm_num [ex100], C9_db_roundtrip ex100 0 0 (by norm_num [ex100])⟩

/-- C10: for every odd window size and every pixel — including edge and
corner pixels — the local mean and local squared mean computed by
`lee_filter` equal the arithmetic means over the size-by-size window,
centred at that pixel, of the mirror-reflect-padded input (scipy
`uniform_filter` default boundary mode "reflect"); every access lands in
range through the reflection, so boundary outputs are fully determined. -/
theorem C10_boundary_reflect (img : Fin m → Fin n → ℚ) (size : ℕ)
    (hs : Odd size) (i : Fin m) (j : Fin n) :
    uniform_filter img size i j = local_mean_spec img size i j ∧
    lee_sqr_mean img size i j = local_sq_mean_spec img size i j :=
  ⟨uniform_filter_odd img size hs i j,
   uniform_filter_odd (fun a b => img a b ^ 2) size hs i j⟩

/-- Witness for C10 at the corner pixel (0, 0) of `exImg` with size 3. -/
theorem C10_boundary_reflect_witness :
    Odd 3 ∧
    (uniform_filter exImg 3 0 0 = local_mean_spec exImg 3 0 0 ∧
      lee_sqr_mean exImg 3 0 0 = local_sq_mean_spec exImg 3 0 0) :=
  ⟨⟨1, by norm_num⟩, C10_boundary_reflect exImg 3 ⟨1, by norm_num⟩ 0 0⟩

end DEAnt
